import Mathlib

/-!
Verification of the security/framing core of the phev2mqtt protocol layer
(`protocol/raw.go`).

Bytes are modelled as `Nat` values; every place where Go's 8-bit unsigned
arithmetic wraps is written with an explicit `% 256`.  An index expression
that would make the Go program panic (slice index out of range) is modelled
by an `Option` result, `none` standing for the panic.  Otherwise each Lean
definition is a direct transcription of the corresponding Go function.
-/

set_option maxRecDepth 8192

namespace Phev

/-- Security-state constants, as in the Go source (`iota` values). -/
def SecurityEmpty : Nat := 0

def SecurityKeyProposed : Nat := 1

def SecurityKeyAccepted : Nat := 2

/-- `SecurityKey` struct from the source: handshake state, the proposed
8-byte key, the derived scalar key, the 256-byte key map and the two
direction counters (`sNum`, `rNum` are Go `byte`s, kept below 256 by the
explicit wraparound in `RKey`/`SKey`). -/
structure SecurityKey where
  State : Nat
  proposedKey : List Nat
  securityKey : Nat
  keyMap : List Nat
  sNum : Nat
  rNum : Nat
deriving DecidableEq, Repr

/-- The Go zero value of `SecurityKey` (fresh connection). -/
def initialKey : SecurityKey := ⟨SecurityEmpty, [], 0, [], 0, 0⟩

/-- The scalar-key derivation inlined at the top of `Update`:
`result := (packet[4] & 0x8) >> 3; result |= (packet[5] & 0x8) >> 2; ...`.
All intermediate values are below 256, so Go's byte arithmetic never wraps
here and no `% 256` is needed. -/
def securityKeyOf (packet : List Nat) : Nat :=
  let r := (packet.getD 4 0 &&& 0x8) >>> 3
  let r := r ||| ((packet.getD 5 0 &&& 0x8) >>> 2)
  let r := r ||| ((packet.getD 6 0 &&& 0x8) >>> 1)
  let r := r ||| (packet.getD 7 0 &&& 0x8)
  let r := r ||| ((packet.getD 8 0 &&& 0x8) <<< 1)
  let r := r ||| ((packet.getD 9 0 &&& 0x8) <<< 2)
  let r := r ||| ((packet.getD 10 0 &&& 0x8) <<< 3)
  let r := r ||| ((packet.getD 11 0 &&& 0x8) <<< 4)
  r

/-- The key-map generation loop of `Update`: start from the identity table
`keyMap[i] = byte(i)` and, for `i` in `0..255`, do
`index = (index + keyMap[i] + s_key) % 256` followed by the three-line
swap of `keyMap[i]` and `keyMap[index]`. -/
def generateKeyMap (s_key : Nat) : List Nat :=
  ((List.range 256).foldl
    (fun (st : List Nat × Nat) i =>
      let index := (st.2 + st.1.getD i 0 + s_key) % 256
      let temp := st.1.getD i 0
      (((st.1.set i (st.1.getD index 0)).set index temp), index))
    (List.range 256, 0)).1

/-- `Update`: packets shorter than 12 bytes clear the keying state;
otherwise the scalar key is derived from bit 3 of bytes 4..11 and the key
map is rebuilt, resetting both counters.  `State` and `proposedKey` are
untouched. -/
def Update (s : SecurityKey) (packet : List Nat) : SecurityKey :=
  if packet.length < 12 then
    { s with keyMap := [], securityKey := 0, sNum := 0, rNum := 0 }
  else
    let k := securityKeyOf packet
    { s with securityKey := k, keyMap := generateKeyMap k, sNum := 0, rNum := 0 }

/-- `GenerateProposal`: the 8 random bytes produced by `rand.Intn(256)` are
supplied as an explicit argument `rnd`; the byte conversion is the
`% 256`.  Returns the proposal together with the updated state. -/
def GenerateProposal (s : SecurityKey) (rnd : Fin 8 → Nat) : List Nat × SecurityKey :=
  let pk := List.ofFn (fun i => rnd i % 256)
  (pk, { s with proposedKey := pk, State := SecurityKeyProposed })

/-- `AcceptProposal`: run `Update` on four zero bytes prepended to the
stored proposal, then mark the state accepted. -/
def AcceptProposal (s : SecurityKey) : SecurityKey :=
  let s' := Update s ([0x0, 0x0, 0x0, 0x0] ++ s.proposedKey)
  { s' with State := SecurityKeyAccepted }

/-- `RKey`: with an empty key map return the sentinel 0 and leave the state
alone; otherwise read `keyMap[rNum]` and, when `increment` holds, bump
`rNum` with byte wraparound after the read. -/
def RKey (s : SecurityKey) (increment : Bool) : Nat × SecurityKey :=
  if s.keyMap.length = 0 then (0, s)
  else
    let ret := s.rNum
    let s' := if increment then { s with rNum := (s.rNum + 1) % 256 } else s
    (s.keyMap.getD ret 0, s')

/-- `SKey`: mirror image of `RKey` for the send direction (`sNum`). -/
def SKey (s : SecurityKey) (increment : Bool) : Nat × SecurityKey :=
  if s.keyMap.length = 0 then (0, s)
  else
    let ret := s.sNum
    let s' := if increment then { s with sNum := (s.sNum + 1) % 256 } else s
    (s.keyMap.getD ret 0, s')

/-- `XorMessageWith`: fresh buffer, every byte XORed with the constant. -/
def XorMessageWith (message : List Nat) (x : Nat) : List Nat :=
  message.map (fun b => b ^^^ x)

/-- `Checksum`: Go computes `length := message[1] + 2` in **byte**
arithmetic, then sums `message[i] + b` (again a byte add) for `i` from 0
while `i < length - 1`, the bound `length - 1` also a byte.  Reading
`message[1]` panics when the buffer has fewer than 2 bytes, and the loop
panics as soon as `i` reaches the buffer length, i.e. exactly when the
bound exceeds it; both panics are the `none` result. -/
def Checksum (message : List Nat) : Option Nat :=
  if 2 ≤ message.length then
    let length := (message.getD 1 0 + 2) % 256
    let bound := (length + 255) % 256
    if bound ≤ message.length then
      some ((List.range bound).foldl (fun b i => (message.getD i 0 + b) % 256) 0)
    else none
  else none

/-- `ValidateChecksum`: here `length := int(message[1]) + 2` is an `int`,
so no wraparound; reading `message[1]` still panics (`none`) below 2
bytes.  After the length guard, `message[length-1]` and the `Checksum`
call are always in bounds. -/
def ValidateChecksum (message : List Nat) : Option Bool :=
  if 2 ≤ message.length then
    let length := message.getD 1 0 + 2
    if message.length < length then some false
    else
      let wantSum := message.getD (length - 1) 0
      (Checksum message).map (fun c => c == wantSum)
  else none

/-- The tail of `ValidateAndDecodeMessage` once a candidate key
validated: `length := msg[1] + 2` (byte arithmetic again) and the split
into decoded frame and trailing bytes. -/
def decodeSplit (message msg : List Nat) (x : Nat) :
    Option (List Nat) × Nat × Option (List Nat) :=
  let length := (msg.getD 1 0 + 2) % 256
  if length < message.length then
    (some (msg.take length), x, some (message.drop length))
  else
    (some (msg.take length), x, none)

/-- `ValidateAndDecodeMessage`: short buffers fail; otherwise try the
self-describing key `message[2]`, then its low-bit complement, accepting
whichever XOR makes the checksum validate.  Inside this function the
buffer has at least 4 bytes, so `ValidateChecksum` never panics and
comparing its result with `some true` is exactly the Go boolean test. -/
def ValidateAndDecodeMessage (message : List Nat) :
    Option (List Nat) × Nat × Option (List Nat) :=
  if message.length < 4 then (none, 0, none)
  else
    let x := message.getD 2 0
    let msg := XorMessageWith message x
    if ValidateChecksum msg = some true then decodeSplit message msg x
    else
      let x := x ^^^ 1
      let msg := XorMessageWith message x
      if ValidateChecksum msg = some true then decodeSplit message msg x
      else (none, 0, none)

/-! ### Spec-side definitions

These follow the wording of the specification and are compared with the
definitions transcribed from the source. -/

/-- Spec wording: "derive `derivedKey` as an 8-bit value where bit `k`
(k = 0..7) equals bit 3 of `packet[4+k]`, assembled LSB-first". -/
def specDerivedKey (packet : List Nat) : Nat :=
  (List.range 8).foldl
    (fun acc k => acc + (if (packet.getD (4 + k) 0).testBit 3 then 2 ^ k else 0)) 0

/-- Spec wording: the standard RC4-style key schedule — identity table,
then 256 rounds of `index = (index + permutation[i] + key) mod 256`
followed by a swap of `permutation[i]` and `permutation[index]`. -/
def swapEntries (l : List Nat) (i j : Nat) : List Nat :=
  (l.set i (l.getD j 0)).set j (l.getD i 0)

def rc4KeySchedule (key : Nat) : List Nat :=
  ((List.range 256).foldl
    (fun (st : List Nat × Nat) i =>
      let index := (st.2 + st.1.getD i 0 + key) % 256
      (swapEntries st.1 i index, index))
    (List.range 256, 0)).1

/-- Spec wording for `Checksum` (claim C5): `length = m[1] + 2` computed as
an ordinary integer, and the checksum is the sum of bytes
`m[0 .. length-2]` inclusive, additions modulo 256. -/
def specChecksum (m : List Nat) : Nat :=
  (m.take (m.getD 1 0 + 1)).sum % 256

/-- A validly obfuscated, checksummed frame with the validating key `x`:
the checksum of the de-obfuscated bytes validates and the declared frame
length matches the actual length. -/
def ValidWith (f : List Nat) (x : Nat) : Prop :=
  ValidateChecksum (XorMessageWith f x) = some true ∧
    f.length = (XorMessageWith f x).getD 1 0 + 2

instance (f : List Nat) (x : Nat) : Decidable (ValidWith f x) := by
  unfold ValidWith; infer_instance

/-- A validly obfuscated and checksummed frame: at least a header, byte
values, and one of the two self-describing candidate keys (`f[2]` or its
low-bit complement) validates at the frame's own length. -/
def IsValidFrame (f : List Nat) : Prop :=
  4 ≤ f.length ∧ (∀ b ∈ f, b < 256) ∧
    (ValidWith f (f.getD 2 0) ∨ ValidWith f (f.getD 2 0 ^^^ 1))

instance (f : List Nat) : Decidable (IsValidFrame f) := by
  unfold IsValidFrame; infer_instance

/-! ### Operation sequences over a `SecurityKey` -/

/-- One call against a `SecurityKey` (the random bytes of
`GenerateProposal` travel with the operation). -/
inductive KeyOp where
  | genProposal (rnd : Fin 8 → Nat)
  | accept
  | update (packet : List Nat)
  | rkey (increment : Bool)
  | skey (increment : Bool)

def applyOp (s : SecurityKey) : KeyOp → SecurityKey
  | KeyOp.genProposal rnd => (GenerateProposal s rnd).2
  | KeyOp.accept => AcceptProposal s
  | KeyOp.update p => Update s p
  | KeyOp.rkey b => (RKey s b).2
  | KeyOp.skey b => (SKey s b).2

def runOps (s : SecurityKey) (ops : List KeyOp) : SecurityKey :=
  ops.foldl applyOp s

/-- Outputs of a sequence of keystream fetches: `(true, b)` is
`RKey b`, `(false, b)` is `SKey b`. -/
def rsOutputs (s : SecurityKey) : List (Bool × Bool) → List Nat
  | [] => []
  | (isR, inc) :: rest =>
    let p := if isR then RKey s inc else SKey s inc
    p.1 :: rsOutputs p.2 rest

/-- The outputs and final state of `n` successive `RKey true` calls. -/
def rkeyRun (s : SecurityKey) : Nat → List Nat × SecurityKey
  | 0 => ([], s)
  | n + 1 =>
    let p := RKey s true
    let q := rkeyRun p.2 n
    (p.1 :: q.1, q.2)

/-- The outputs and final state of `n` successive `SKey true` calls. -/
def skeyRun (s : SecurityKey) : Nat → List Nat × SecurityKey
  | 0 => ([], s)
  | n + 1 =>
    let p := SKey s true
    let q := skeyRun p.2 n
    (p.1 :: q.1, q.2)

/-- The key-map invariant: empty, or a permutation of `0..255`. -/
def KeyMapInv (s : SecurityKey) : Prop :=
  s.keyMap = [] ∨ s.keyMap.Perm (List.range 256)

/-! ### Helper lemmas -/

lemma count_set_aux :
    ∀ (l : List Nat) (i : Nat), i < l.length → ∀ (b a : Nat),
      (l.set i b).count a + (if l.getD i 0 = a then 1 else 0) =
        l.count a + (if b = a then 1 else 0) := by
  intro l
  induction l with
  | nil => intro i hi; simp at hi
  | cons x xs ih =>
    intro i hi b a
    cases i with
    | zero =>
      simp only [List.set, List.getD_cons_zero, List.count_cons, beq_iff_eq]
      split_ifs <;> omega
    | succ n =>
      have hn : n < xs.length := by simpa using hi
      have h := ih n hn b a
      simp only [List.set_cons_succ, List.getD_cons_succ, List.count_cons, beq_iff_eq]
      split_ifs at h ⊢ <;> omega

lemma swapEntries_perm (l : List Nat) (i j : Nat)
    (hi : i < l.length) (hj : j < l.length) :
    (swapEntries l i j).Perm l := by
  rw [List.perm_iff_count]
  intro a
  have hj' : j < (l.set i (l.getD j 0)).length := by simpa using hj
  have h1 := count_set_aux l i hi (l.getD j 0) a
  have h2 := count_set_aux (l.set i (l.getD j 0)) j hj' (l.getD i 0) a
  have h3 : (l.set i (l.getD j 0)).getD j 0 = l.getD j 0 := by
    rw [List.getD_eq_getElem _ _ hj', List.getElem_set]
    by_cases hij : i = j
    · rw [if_pos hij]
    · rw [if_neg hij]
      exact (List.getD_eq_getElem l 0 hj).symm
  rw [h3] at h2
  unfold swapEntries
  split_ifs at h1 h2 <;> omega

lemma foldl_preserves {α β : Type} (P : β → Prop) (f : β → α → β) :
    ∀ (l : List α) (b : β), (∀ x ∈ l, ∀ acc, P acc → P (f acc x)) → P b →
      P (l.foldl f b) := by
  intro l
  induction l with
  | nil => intro b _ hb; exact hb
  | cons x xs ih =>
    intro b hstep hb
    exact ih (f b x) (fun y hy acc hacc => hstep y (List.mem_cons_of_mem x hy) acc hacc)
      (hstep x (List.mem_cons_self x xs) b hb)

set_option maxRecDepth 8192 in
lemma generateKeyMap_perm (k : Nat) :
    (generateKeyMap k).Perm (List.range 256) := by
  unfold generateKeyMap
  refine foldl_preserves (fun st : List Nat × Nat => st.1.Perm (List.range 256)) _
    (List.range 256) (List.range 256, 0) ?_ (List.Perm.refl _)
  intro i hi st hst
  have hlen : st.1.length = 256 := by
    have := hst.length_eq
    simpa using this
  have hi' : i < st.1.length := by rw [hlen]; exact List.mem_range.mp hi
  have hidx : (st.2 + st.1.getD i 0 + k) % 256 < st.1.length := by
    rw [hlen]; exact Nat.mod_lt _ (by decide)
  exact (swapEntries_perm st.1 i _ hi' hidx).trans hst

lemma rkey_keyMap (s : SecurityKey) (b : Bool) : ((RKey s b).2).keyMap = s.keyMap := by
  unfold RKey
  split
  · rfl
  · dsimp only
    split <;> rfl

lemma skey_keyMap (s : SecurityKey) (b : Bool) : ((SKey s b).2).keyMap = s.keyMap := by
  unfold SKey
  split
  · rfl
  · dsimp only
    split <;> rfl

lemma rsOutputs_zero_of_empty (s : SecurityKey) (h : s.keyMap = []) :
    ∀ calls : List (Bool × Bool), ∀ v ∈ rsOutputs s calls, v = 0 := by
  intro calls
  induction calls with
  | nil => intro v hv; simp [rsOutputs] at hv
  | cons c rest ih =>
    obtain ⟨isR, inc⟩ := c
    have hr : RKey s inc = (0, s) := by
      unfold RKey; rw [if_pos (by simp [h])]
    have hs : SKey s inc = (0, s) := by
      unfold SKey; rw [if_pos (by simp [h])]
    have hstep : rsOutputs s ((isR, inc) :: rest) = 0 :: rsOutputs s rest := by
      cases isR
      · simp [rsOutputs, hs]
      · simp [rsOutputs, hr]
    intro v hv
    rw [hstep] at hv
    rcases List.mem_cons.mp hv with hv' | hv'
    · exact hv'
    · exact ih v hv'

/-! ### Claim theorems -/

/-- C9: `XorMessageWith` is an involution: XORing twice with the same byte
restores the original buffer, and the output always has the same length as
the input.  The embedding is a pure function returning a fresh list, as the
Go code allocates a fresh slice and never writes to its argument. -/
theorem xorMessageWith_involution (b : List Nat) (x : Nat) :
    XorMessageWith (XorMessageWith b x) x = b ∧
      (XorMessageWith b x).length = b.length := by
  constructor
  · unfold XorMessageWith
    rw [List.map_map]
    have : ((fun c => c ^^^ x) ∘ fun c => c ^^^ x) = id := by
      funext c
      simp [Function.comp, Nat.xor_cancel_right]
    rw [this, List.map_id]
  · exact List.length_map b _

/-- C8: `Update` with a packet shorter than 12 bytes clears the key map,
zeroes the derived key and both counters, and afterwards every `RKey`/`SKey`
call (with either increment flag, in any order) returns the sentinel 0. -/
theorem update_short_clears (s : SecurityKey) (p : List Nat) (h : p.length < 12) :
    (Update s p).keyMap = [] ∧ (Update s p).securityKey = 0 ∧
      (Update s p).sNum = 0 ∧ (Update s p).rNum = 0 ∧
      ∀ calls : List (Bool × Bool), ∀ v ∈ rsOutputs (Update s p) calls, v = 0 := by
  have hu : Update s p = { s with keyMap := [], securityKey := 0, sNum := 0, rNum := 0 } := by
    unfold Update; rw [if_pos h]
  refine ⟨by rw [hu], by rw [hu], by rw [hu], by rw [hu], ?_⟩
  exact rsOutputs_zero_of_empty _ (by rw [hu])

theorem update_short_clears_witness :
    (Update initialKey [1, 2, 3]).keyMap = [] :=
  (update_short_clears initialKey [1, 2, 3] (by decide)).1

/-- C10: `AcceptProposal` on a `SecurityKey` whose proposal is empty feeds
the 4-byte packet `[0,0,0,0]` to `Update`, which clears the key map; the
state ends `Accepted` with empty permutation and every subsequent
`RKey`/`SKey` call returns 0. -/
theorem acceptProposal_empty_proposal (s : SecurityKey) (h : s.proposedKey = []) :
    (AcceptProposal s).State = SecurityKeyAccepted ∧
      (AcceptProposal s).keyMap = [] ∧ (AcceptProposal s).securityKey = 0 ∧
      (AcceptProposal s).sNum = 0 ∧ (AcceptProposal s).rNum = 0 ∧
      ∀ calls : List (Bool × Bool), ∀ v ∈ rsOutputs (AcceptProposal s) calls, v = 0 := by
  have hpkt : ([0x0, 0x0, 0x0, 0x0] ++ s.proposedKey).length < 12 := by
    rw [h]; decide
  have hclr := update_short_clears s _ hpkt
  unfold AcceptProposal
  refine ⟨rfl, hclr.1, hclr.2.1, hclr.2.2.1, hclr.2.2.2.1, ?_⟩
  exact rsOutputs_zero_of_empty _ hclr.1

lemma checksum_foldl_eq (m : List Nat) :
    ∀ n, n ≤ m.length →
      (List.range n).foldl (fun b i => (m.getD i 0 + b) % 256) 0 =
        (m.take n).sum % 256 := by
  intro n
  induction n with
  | zero => intro _; simp
  | succ n ih =>
    intro h
    have hn : n < m.length := h
    rw [List.range_succ, List.foldl_append, ih (Nat.le_of_lt hn)]
    have h1 : m.take (n + 1) = m.take n ++ [m[n]] := by
      rw [List.take_succ, List.getElem?_eq_getElem hn]
      rfl
    rw [h1, List.sum_append]
    simp only [List.foldl_cons, List.foldl_nil, List.sum_cons, List.sum_nil]
    rw [List.getD_eq_getElem m 0 hn, Nat.add_mod_mod, Nat.add_comm]
    simp

set_option maxRecDepth 100000 in
lemma and_eight (x : Nat) : x &&& 8 = (x.testBit 3).toNat * 8 := by
  have h := Nat.and_two_pow x 3
  norm_num at h
  exact h

lemma specDerivedKey_bits (p : List Nat) :
    specDerivedKey p < 256 ∧
      (specDerivedKey p).testBit 0 = (p.getD 4 0).testBit 3 ∧
      (specDerivedKey p).testBit 1 = (p.getD 5 0).testBit 3 ∧
      (specDerivedKey p).testBit 2 = (p.getD 6 0).testBit 3 ∧
      (specDerivedKey p).testBit 3 = (p.getD 7 0).testBit 3 ∧
      (specDerivedKey p).testBit 4 = (p.getD 8 0).testBit 3 ∧
      (specDerivedKey p).testBit 5 = (p.getD 9 0).testBit 3 ∧
      (specDerivedKey p).testBit 6 = (p.getD 10 0).testBit 3 ∧
      (specDerivedKey p).testBit 7 = (p.getD 11 0).testBit 3 := by
  unfold specDerivedKey
  rw [show List.range 8 = [0, 1, 2, 3, 4, 5, 6, 7] from rfl]
  simp only [List.foldl_cons, List.foldl_nil, Nat.reduceAdd, Nat.reducePow]
  cases (p.getD 4 0).testBit 3 <;> cases (p.getD 5 0).testBit 3 <;>
    cases (p.getD 6 0).testBit 3 <;> cases (p.getD 7 0).testBit 3 <;>
    cases (p.getD 8 0).testBit 3 <;> cases (p.getD 9 0).testBit 3 <;>
    cases (p.getD 10 0).testBit 3 <;> cases (p.getD 11 0).testBit 3 <;> decide

lemma securityKeyOf_eq_spec (p : List Nat) : securityKeyOf p = specDerivedKey p := by
  unfold securityKeyOf specDerivedKey
  rw [show List.range 8 = [0, 1, 2, 3, 4, 5, 6, 7] from rfl]
  simp only [List.foldl_cons, List.foldl_nil, Nat.reduceAdd, Nat.reducePow]
  rw [and_eight (p.getD 4 0), and_eight (p.getD 5 0), and_eight (p.getD 6 0),
    and_eight (p.getD 7 0), and_eight (p.getD 8 0), and_eight (p.getD 9 0),
    and_eight (p.getD 10 0), and_eight (p.getD 11 0)]
  cases (p.getD 4 0).testBit 3 <;> cases (p.getD 5 0).testBit 3 <;>
    cases (p.getD 6 0).testBit 3 <;> cases (p.getD 7 0).testBit 3 <;>
    cases (p.getD 8 0).testBit 3 <;> cases (p.getD 9 0).testBit 3 <;>
    cases (p.getD 10 0).testBit 3 <;> cases (p.getD 11 0).testBit 3 <;> decide

lemma generateKeyMap_eq_rc4 (k : Nat) : generateKeyMap k = rc4KeySchedule k := rfl

lemma update_long_eq (s : SecurityKey) (p : List Nat) (h : 12 ≤ p.length) :
    Update s p =
      { s with securityKey := securityKeyOf p,
               keyMap := generateKeyMap (securityKeyOf p),
               sNum := 0, rNum := 0 } := by
  unfold Update
  rw [if_neg (by omega)]

set_option maxRecDepth 8192 in
/-- C1: for every packet of at least 12 bytes, `Update` derives the scalar
key whose bit `k` is bit 3 of `packet[4+k]` (LSB-first, a value below
256), rebuilds the key map as the RC4-style key schedule for that scalar
key, resets both counters, and leaves `State` and `proposedKey` unchanged;
on the scenario packet the derived key is `0xAD` with the corresponding
key schedule. -/
theorem update_long_packet (s : SecurityKey) (p : List Nat) (h : 12 ≤ p.length) :
    (Update s p).securityKey = specDerivedKey p /\
      (Update s p).securityKey < 256 /\
      (((Update s p).securityKey).testBit 0 = (p.getD 4 0).testBit 3 /\
        ((Update s p).securityKey).testBit 1 = (p.getD 5 0).testBit 3 /\
        ((Update s p).securityKey).testBit 2 = (p.getD 6 0).testBit 3 /\
        ((Update s p).securityKey).testBit 3 = (p.getD 7 0).testBit 3 /\
        ((Update s p).securityKey).testBit 4 = (p.getD 8 0).testBit 3 /\
        ((Update s p).securityKey).testBit 5 = (p.getD 9 0).testBit 3 /\
        ((Update s p).securityKey).testBit 6 = (p.getD 10 0).testBit 3 /\
        ((Update s p).securityKey).testBit 7 = (p.getD 11 0).testBit 3) /\
      (Update s p).keyMap = rc4KeySchedule (specDerivedKey p) /\
      (Update s p).sNum = 0 /\ (Update s p).rNum = 0 /\
      (Update s p).State = s.State /\
      (Update s p).proposedKey = s.proposedKey /\
      specDerivedKey [0, 0, 0, 0, 0x08, 0x00, 0x08, 0x08, 0x00, 0x08, 0x00, 0x08] = 0xAD /\
      (Update s [0, 0, 0, 0, 0x08, 0x00, 0x08, 0x08, 0x00, 0x08, 0x00, 0x08]).securityKey
        = 0xAD /\
      (Update s [0, 0, 0, 0, 0x08, 0x00, 0x08, 0x08, 0x00, 0x08, 0x00, 0x08]).keyMap
        = rc4KeySchedule 0xAD := by
  have hu := update_long_eq s p h
  have hscen := update_long_eq s [0, 0, 0, 0, 0x08, 0x00, 0x08, 0x08, 0x00, 0x08, 0x00, 0x08]
    (by decide)
  have hk := securityKeyOf_eq_spec p
  have hbits := specDerivedKey_bits p
  have hkc : securityKeyOf [0, 0, 0, 0, 0x08, 0x00, 0x08, 0x08, 0x00, 0x08, 0x00, 0x08]
      = 0xAD := by decide
  rw [hu, hscen, hk, hkc]
  dsimp only
  refine ⟨rfl, hbits.1, hbits.2, generateKeyMap_eq_rc4 _, rfl, rfl, rfl, rfl,
    by decide, rfl, generateKeyMap_eq_rc4 _⟩

theorem update_long_packet_witness :
    (Update initialKey [0, 0, 0, 0, 0x08, 0x00, 0x08, 0x08, 0x00, 0x08, 0x00, 0x08]).securityKey
      = specDerivedKey [0, 0, 0, 0, 0x08, 0x00, 0x08, 0x08, 0x00, 0x08, 0x00, 0x08] :=
  (update_long_packet initialKey
    [0, 0, 0, 0, 0x08, 0x00, 0x08, 0x08, 0x00, 0x08, 0x00, 0x08] (by decide)).1

set_option maxRecDepth 100000 in
/-- C5 counterexample: with `m[1] = 255` the Go byte `length := m[1] + 2`
wraps to 1, the loop bound `length - 1` is 0 and `Checksum` sums nothing,
while the claim's ordinary-integer reading (`specChecksum`) sums
`m[0..255]`.  On `[2, 255]` followed by 255 zero bytes the two answers
differ (0 versus 1). -/
theorem checksum_length_is_byte_cex :
    ([2, 255] ++ List.replicate 255 0).getD 1 0 + 2 ≤
        ([2, 255] ++ List.replicate 255 0).length ∧
      specChecksum ([2, 255] ++ List.replicate 255 0) = 1 ∧
      Checksum ([2, 255] ++ List.replicate 255 0) = some 0 := by
  refine ⟨by decide, by decide, by decide⟩

/-- C5 amended: `Checksum` computes `length = m[1] + 2` and the loop bound
`length - 1` in byte (mod 256) arithmetic, so it sums the first
`(m[1] + 1) mod 256` bytes modulo 256; for `m[1] ≤ 253` this agrees with
the claim's sum over `m[0 .. length-2]`. -/
theorem checksum_byte_arithmetic (m : List Nat) (h : m.getD 1 0 + 2 ≤ m.length) :
    Checksum m = some ((m.take ((m.getD 1 0 + 1) % 256)).sum % 256) ∧
      (m.getD 1 0 ≤ 253 → Checksum m = some (specChecksum m)) := by
  have h2 : 2 ≤ m.length := by omega
  have hbound : ((m.getD 1 0 + 2) % 256 + 255) % 256 = (m.getD 1 0 + 1) % 256 := by
    omega
  have hble : (m.getD 1 0 + 1) % 256 ≤ m.length := by omega
  have hgen : Checksum m = some ((m.take ((m.getD 1 0 + 1) % 256)).sum % 256) := by
    unfold Checksum
    rw [if_pos h2]
    dsimp only
    rw [hbound, if_pos hble, checksum_foldl_eq m _ hble]
  refine ⟨hgen, fun h253 => ?_⟩
  have hin : (m.getD 1 0 + 1) % 256 = m.getD 1 0 + 1 := Nat.mod_eq_of_lt (by omega)
  rw [hgen, hin]
  unfold specChecksum
  rfl

theorem checksum_byte_arithmetic_witness :
    Checksum [16, 3, 170, 187, 0] =
      some (([16, 3, 170, 187, 0].take
        (([16, 3, 170, 187, 0].getD 1 0 + 1) % 256)).sum % 256) :=
  (checksum_byte_arithmetic [16, 3, 170, 187, 0] (by decide)).1

/-- C6 counterexample: `ValidateChecksum` reads `message[1]` before any
length guard, so the Go code panics (`none` in this model) on buffers of
fewer than 2 bytes instead of returning false — it is not total on every
input length. -/
theorem validateChecksum_short_panics_cex :
    ValidateChecksum ([] : List Nat) = none ∧
      ValidateChecksum [0x10] = none := by
  decide

/-- C6 amended: for every message of at least 2 bytes `ValidateChecksum`
is total: it returns `false` when the buffer is shorter than the declared
length `m[1] + 2`, and otherwise compares `Checksum m` with the byte at
index `length - 1`. -/
theorem validateChecksum_total_ge_two (m : List Nat) (h : 2 ≤ m.length) :
    (m.length < m.getD 1 0 + 2 → ValidateChecksum m = some false) ∧
      (m.getD 1 0 + 2 ≤ m.length →
        ∃ c, Checksum m = some c ∧
          ValidateChecksum m = some (c == m.getD (m.getD 1 0 + 1) 0)) := by
  constructor
  · intro hlt
    unfold ValidateChecksum
    rw [if_pos h]
    dsimp only
    rw [if_pos hlt]
  · intro hge
    obtain ⟨hcs, -⟩ := checksum_byte_arithmetic m hge
    refine ⟨_, hcs, ?_⟩
    unfold ValidateChecksum
    rw [if_pos h]
    dsimp only
    rw [if_neg (by omega), hcs]
    rfl

theorem validateChecksum_total_witness :
    ValidateChecksum [16, 3, 170, 187] = some false :=
  (validateChecksum_total_ge_two [16, 3, 170, 187] (by decide)).1 (by decide)

theorem acceptProposal_empty_proposal_witness :
    (AcceptProposal initialKey).State = SecurityKeyAccepted ∧
      (AcceptProposal initialKey).keyMap = [] :=
  ⟨(acceptProposal_empty_proposal initialKey rfl).1,
   (acceptProposal_empty_proposal initialKey rfl).2.1⟩

lemma keyMapInv_update (s : SecurityKey) (p : List Nat) : KeyMapInv (Update s p) := by
  by_cases hlen : p.length < 12
  · left
    unfold Update
    rw [if_pos hlen]
  · right
    rw [update_long_eq s p (by omega)]
    dsimp only
    exact generateKeyMap_perm (securityKeyOf p)

lemma keyMapInv_applyOp (s : SecurityKey) (op : KeyOp) (h : KeyMapInv s) :
    KeyMapInv (applyOp s op) := by
  cases op with
  | genProposal rnd => exact h
  | accept => exact keyMapInv_update s ([0x0, 0x0, 0x0, 0x0] ++ s.proposedKey)
  | update p => exact keyMapInv_update s p
  | rkey b =>
    unfold KeyMapInv
    rw [show (applyOp s (KeyOp.rkey b)).keyMap = s.keyMap from rkey_keyMap s b]
    exact h
  | skey b =>
    unfold KeyMapInv
    rw [show (applyOp s (KeyOp.skey b)).keyMap = s.keyMap from skey_keyMap s b]
    exact h

/-- C3: starting from any state satisfying it, every sequence of
operations preserves the invariant that the key map is either empty or a
permutation of `{0..255}`; and after any `Update` with a packet of at
least 12 bytes, the key map has exactly 256 entries and every value in
`0..255` appears exactly once. -/
theorem keyMap_bijection_invariant :
    (∀ (s : SecurityKey) (ops : List KeyOp), KeyMapInv s → KeyMapInv (runOps s ops)) ∧
      (∀ (s : SecurityKey) (p : List Nat), 12 ≤ p.length →
        (Update s p).keyMap.length = 256 ∧
          ∀ v, v < 256 → (Update s p).keyMap.count v = 1) := by
  constructor
  · intro s ops h
    unfold runOps
    exact foldl_preserves KeyMapInv applyOp ops s
      (fun op _ acc hacc => keyMapInv_applyOp acc op hacc) h
  · intro s p hp
    have hperm : (Update s p).keyMap.Perm (List.range 256) := by
      rw [update_long_eq s p hp]
      dsimp only
      exact generateKeyMap_perm (securityKeyOf p)
    refine ⟨by rw [hperm.length_eq, List.length_range], fun v hv => ?_⟩
    rw [hperm.count_eq]
    exact List.count_eq_one_of_mem (List.nodup_range 256) (List.mem_range.mpr hv)

theorem keyMap_bijection_invariant_witness :
    KeyMapInv (runOps initialKey
      [KeyOp.update [0, 0, 0, 0, 0x08, 0, 0x08, 0x08, 0, 0x08, 0, 0x08],
        KeyOp.rkey true, KeyOp.skey false]) ∧
      (Update initialKey [0, 0, 0, 0, 0x08, 0, 0x08, 0x08, 0, 0x08, 0, 0x08]).keyMap.count
        173 = 1 :=
  ⟨keyMap_bijection_invariant.1 initialKey
      [KeyOp.update [0, 0, 0, 0, 0x08, 0, 0x08, 0x08, 0, 0x08, 0, 0x08],
        KeyOp.rkey true, KeyOp.skey false] (Or.inl rfl),
   (keyMap_bijection_invariant.2 initialKey
      [0, 0, 0, 0, 0x08, 0, 0x08, 0x08, 0, 0x08, 0, 0x08] (by decide)).2 173 (by decide)⟩

lemma map_getD_range (l : List Nat) :
    (List.range l.length).map (fun i => l.getD i 0) = l := by
  induction l with
  | nil => rfl
  | cons x xs ih =>
    rw [List.length_cons, List.range_succ_eq_map, List.map_cons, List.map_map]
    have h1 : ((fun i => (x :: xs).getD i 0) ∘ Nat.succ) = (fun i => xs.getD i 0) := by
      funext i; rfl
    rw [h1, ih]
    rfl

lemma rkeyRun_outputs (n : Nat) :
    ∀ (s : SecurityKey), s.keyMap.length = 256 → s.rNum < 256 →
      (rkeyRun s n).1 =
          (List.range n).map (fun i => s.keyMap.getD ((s.rNum + i) % 256) 0) ∧
        (rkeyRun s n).2 = { s with rNum := (s.rNum + n) % 256 } := by
  induction n with
  | zero =>
    intro s _ hr
    refine ⟨rfl, ?_⟩
    rw [show (s.rNum + 0) % 256 = s.rNum from by omega]
    rfl
  | succ n ih =>
    intro s h256 hr
    have hnz : ¬ s.keyMap.length = 0 := by omega
    have hfirst : RKey s true =
        (s.keyMap.getD s.rNum 0, { s with rNum := (s.rNum + 1) % 256 }) := by
      unfold RKey
      rw [if_neg hnz]
      rfl
    obtain ⟨ih1, ih2⟩ := ih { s with rNum := (s.rNum + 1) % 256 } h256
      (Nat.mod_lt _ (by decide))
    constructor
    · show (RKey s true).1 :: (rkeyRun (RKey s true).2 n).1 = _
      rw [hfirst]
      dsimp only
      rw [ih1, List.range_succ_eq_map, List.map_cons, List.map_map]
      dsimp only
      congr 1
      · rw [Nat.add_zero, Nat.mod_eq_of_lt hr]
      · refine List.map_congr_left fun a _ => ?_
        have : ((s.rNum + 1) % 256 + a) % 256 = (s.rNum + (a + 1)) % 256 := by omega
        rw [this]
        rfl
    · show (rkeyRun (RKey s true).2 n).2 = _
      rw [hfirst]
      dsimp only
      rw [ih2]
      have : ((s.rNum + 1) % 256 + n) % 256 = (s.rNum + (n + 1)) % 256 := by omega
      rw [this]

lemma skeyRun_outputs (n : Nat) :
    ∀ (s : SecurityKey), s.keyMap.length = 256 → s.sNum < 256 →
      (skeyRun s n).1 =
          (List.range n).map (fun i => s.keyMap.getD ((s.sNum + i) % 256) 0) ∧
        (skeyRun s n).2 = { s with sNum := (s.sNum + n) % 256 } := by
  induction n with
  | zero =>
    intro s _ hs
    refine ⟨rfl, ?_⟩
    rw [show (s.sNum + 0) % 256 = s.sNum from by omega]
    rfl
  | succ n ih =>
    intro s h256 hs
    have hnz : ¬ s.keyMap.length = 0 := by omega
    have hfirst : SKey s true =
        (s.keyMap.getD s.sNum 0, { s with sNum := (s.sNum + 1) % 256 }) := by
      unfold SKey
      rw [if_neg hnz]
      rfl
    obtain ⟨ih1, ih2⟩ := ih { s with sNum := (s.sNum + 1) % 256 } h256
      (Nat.mod_lt _ (by decide))
    constructor
    · show (SKey s true).1 :: (skeyRun (SKey s true).2 n).1 = _
      rw [hfirst]
      dsimp only
      rw [ih1, List.range_succ_eq_map, List.map_cons, List.map_map]
      dsimp only
      congr 1
      · rw [Nat.add_zero, Nat.mod_eq_of_lt hs]
      · refine List.map_congr_left fun a _ => ?_
        have : ((s.sNum + 1) % 256 + a) % 256 = (s.sNum + (a + 1)) % 256 := by omega
        rw [this]
        rfl
    · show (skeyRun (SKey s true).2 n).2 = _
      rw [hfirst]
      dsimp only
      rw [ih2]
      have : ((s.sNum + 1) % 256 + n) % 256 = (s.sNum + (n + 1)) % 256 := by omega
      rw [this]

lemma run256_eq_keyMap (l : List Nat) (h : l.length = 256) :
    (List.range 256).map (fun i => l.getD ((0 + i) % 256) 0) = l := by
  have hcg : (List.range 256).map (fun i => l.getD ((0 + i) % 256) 0) =
      (List.range 256).map (fun i => l.getD i 0) := by
    refine List.map_congr_left fun a ha => ?_
    have ha' := List.mem_range.mp ha
    rw [show (0 + a) % 256 = a from by omega]
  rw [hcg, ← h, map_getD_range]

/-- C7: after an `Update` with a packet of at least 12 bytes, 256
successive `RKey(true)` calls return `permutation[0..255]` in index order
(each entry exactly once — the key map is duplicate-free), and the 257th
call returns `permutation[0]` again because the counter wraps; the same
holds for `SKey(true)` and the send counter. -/
theorem rkey_skey_rotation (s : SecurityKey) (p : List Nat) (h : 12 ≤ p.length) :
    (rkeyRun (Update s p) 256).1 = (Update s p).keyMap ∧
      (rkeyRun (Update s p) 257).1 =
        (Update s p).keyMap ++ [(Update s p).keyMap.getD 0 0] ∧
      (skeyRun (Update s p) 256).1 = (Update s p).keyMap ∧
      (skeyRun (Update s p) 257).1 =
        (Update s p).keyMap ++ [(Update s p).keyMap.getD 0 0] ∧
      (Update s p).keyMap.Nodup := by
  have hu := update_long_eq s p h
  have hperm : (Update s p).keyMap.Perm (List.range 256) := by
    rw [hu]
    dsimp only
    exact generateKeyMap_perm (securityKeyOf p)
  have h256 : (Update s p).keyMap.length = 256 := by
    rw [hperm.length_eq, List.length_range]
  have hr : (Update s p).rNum = 0 := by rw [hu]
  have hs : (Update s p).sNum = 0 := by rw [hu]
  have hr256 := rkeyRun_outputs 256 (Update s p) h256 (by rw [hr]; decide)
  have hr257 := rkeyRun_outputs 257 (Update s p) h256 (by rw [hr]; decide)
  have hs256 := skeyRun_outputs 256 (Update s p) h256 (by rw [hs]; decide)
  have hs257 := skeyRun_outputs 257 (Update s p) h256 (by rw [hs]; decide)
  refine ⟨?_, ?_, ?_, ?_, hperm.symm.nodup (List.nodup_range 256)⟩
  · rw [hr256.1, hr]
    exact run256_eq_keyMap _ h256
  · rw [hr257.1, hr, List.range_succ, List.map_append]
    rw [run256_eq_keyMap _ h256]
    rfl
  · rw [hs256.1, hs]
    exact run256_eq_keyMap _ h256
  · rw [hs257.1, hs, List.range_succ, List.map_append]
    rw [run256_eq_keyMap _ h256]
    rfl

theorem rkey_skey_rotation_witness :
    (rkeyRun (Update initialKey [0, 0, 0, 0, 0x08, 0, 0x08, 0x08, 0, 0x08, 0, 0x08]) 256).1
      = (Update initialKey [0, 0, 0, 0, 0x08, 0, 0x08, 0x08, 0, 0x08, 0, 0x08]).keyMap :=
  (rkey_skey_rotation initialKey [0, 0, 0, 0, 0x08, 0, 0x08, 0x08, 0, 0x08, 0, 0x08]
    (by decide)).1

lemma decodeSplit_fst (message msg : List Nat) (x : Nat) :
    (decodeSplit message msg x).1 = some (msg.take ((msg.getD 1 0 + 2) % 256)) := by
  unfold decodeSplit
  dsimp only
  split <;> rfl

lemma decodeSplit_ne (message msg : List Nat) (x : Nat) :
    decodeSplit message msg x ≠ (none, 0, none) := by
  intro h
  have h1 := congrArg Prod.fst h
  rw [decodeSplit_fst] at h1
  exact Option.noConfusion h1

/-- C4: `ValidateAndDecodeMessage` returns the absent triple
`(none, 0, none)` exactly when the buffer has fewer than 4 bytes or
neither the self-describing key `message[2]` nor its low-bit complement
yields a buffer passing `ValidateChecksum`; in particular a buffer that
validates under the complemented key still decodes via the bit-flip
retry. -/
theorem decode_failure_iff :
    (∀ m : List Nat,
        ValidateAndDecodeMessage m = (none, 0, none) ↔
          (m.length < 4 ∨
            (ValidateChecksum (XorMessageWith m (m.getD 2 0)) ≠ some true ∧
              ValidateChecksum (XorMessageWith m (m.getD 2 0 ^^^ 1)) ≠ some true))) ∧
      (∀ m : List Nat, 4 ≤ m.length →
        ValidateChecksum (XorMessageWith m (m.getD 2 0 ^^^ 1)) = some true →
        (ValidateAndDecodeMessage m).1 ≠ none) := by
  constructor
  · intro m
    by_cases h4 : m.length < 4
    · unfold ValidateAndDecodeMessage
      rw [if_pos h4]
      exact ⟨fun _ => Or.inl h4, fun _ => rfl⟩
    · unfold ValidateAndDecodeMessage
      rw [if_neg h4]
      dsimp only
      by_cases hA : ValidateChecksum (XorMessageWith m (m.getD 2 0)) = some true
      · rw [if_pos hA]
        constructor
        · intro h
          exact absurd h (decodeSplit_ne _ _ _)
        · intro h
          rcases h with h | ⟨h1, _⟩
          · exact absurd h h4
          · exact absurd hA h1
      · rw [if_neg hA]
        by_cases hB : ValidateChecksum (XorMessageWith m (m.getD 2 0 ^^^ 1)) = some true
        · rw [if_pos hB]
          constructor
          · intro h
            exact absurd h (decodeSplit_ne _ _ _)
          · intro h
            rcases h with h | ⟨_, h2⟩
            · exact absurd h h4
            · exact absurd hB h2
        · rw [if_neg hB]
          exact ⟨fun _ => Or.inr ⟨hA, hB⟩, fun _ => rfl⟩
  · intro m h4 hB
    unfold ValidateAndDecodeMessage
    rw [if_neg (by omega)]
    dsimp only
    by_cases hA : ValidateChecksum (XorMessageWith m (m.getD 2 0)) = some true
    · rw [if_pos hA, decodeSplit_fst]
      exact fun h => Option.noConfusion h
    · rw [if_neg hA, if_pos hB, decodeSplit_fst]
      exact fun h => Option.noConfusion h

theorem decode_failure_iff_witness :
    ValidateAndDecodeMessage [5, 0, 0, 0] = (none, 0, none) ∧
      (ValidateAndDecodeMessage [0, 3, 1, 2, 6]).1 ≠ none :=
  ⟨(decode_failure_iff.1 [5, 0, 0, 0]).mpr (by decide),
   decode_failure_iff.2 [0, 3, 1, 2, 6] (by decide) (by decide)⟩

lemma xorMessageWith_append (a b : List Nat) (x : Nat) :
    XorMessageWith (a ++ b) x = XorMessageWith a x ++ XorMessageWith b x :=
  List.map_append _ a b

lemma checksum_foldl_prefix (p t : List Nat) :
    ∀ n, n ≤ p.length → ∀ acc : Nat,
      (List.range n).foldl (fun b i => ((p ++ t).getD i 0 + b) % 256) acc =
        (List.range n).foldl (fun b i => (p.getD i 0 + b) % 256) acc := by
  intro n
  induction n with
  | zero => intro _ _; rfl
  | succ n ih =>
    intro h acc
    rw [List.range_succ, List.foldl_append, List.foldl_append, ih (by omega) acc]
    simp only [List.foldl_cons, List.foldl_nil]
    rw [List.getD_append _ _ _ _ (by omega)]

lemma checksum_append (p t : List Nat) (h2 : 2 ≤ p.length)
    (hb : ((p.getD 1 0 + 2) % 256 + 255) % 256 ≤ p.length) :
    Checksum (p ++ t) = Checksum p := by
  have hlen : p.length ≤ (p ++ t).length := by
    rw [List.length_append]; omega
  have hg1 : (p ++ t).getD 1 0 = p.getD 1 0 := List.getD_append _ _ _ _ (by omega)
  unfold Checksum
  rw [if_pos (le_trans h2 hlen), if_pos h2]
  dsimp only
  rw [hg1, if_pos (le_trans hb hlen), if_pos hb,
    checksum_foldl_prefix p t _ hb 0]

lemma validateChecksum_append (p t : List Nat) (h2 : 2 ≤ p.length)
    (hL : p.getD 1 0 + 2 ≤ p.length) :
    ValidateChecksum (p ++ t) = ValidateChecksum p := by
  have hlen : p.length ≤ (p ++ t).length := by
    rw [List.length_append]; omega
  have hg1 : (p ++ t).getD 1 0 = p.getD 1 0 := List.getD_append _ _ _ _ (by omega)
  have hb : ((p.getD 1 0 + 2) % 256 + 255) % 256 ≤ p.length := by omega
  unfold ValidateChecksum
  rw [if_pos (le_trans h2 hlen), if_pos h2]
  dsimp only
  rw [hg1, if_neg (by omega : ¬ (p ++ t).length < p.getD 1 0 + 2),
    if_neg (by omega : ¬ p.length < p.getD 1 0 + 2)]
  rw [List.getD_append _ _ _ _ (by omega : p.getD 1 0 + 2 - 1 < p.length)]
  rw [checksum_append p t h2 hb]

/-- C2 amended: splitting frame₁ ++ frame₂ works for every pair of valid
frames of total frame length at most 255 provided the first candidate key
actually belongs to frame₁'s valid decoding — either frame₁ validates
with its primary self-describing key, or it validates with the
complemented key and the primary key does not spuriously pass the
checksum on the concatenation. -/
theorem decode_trailing_split (f1 f2 : List Nat) (x : Nat)
    (h1 : IsValidFrame f1) (h2 : IsValidFrame f2) (hlen : f1.length ≤ 255)
    (hx : (x = f1.getD 2 0 ∧ ValidWith f1 x) ∨
          (x = f1.getD 2 0 ^^^ 1 ∧ ValidWith f1 x ∧
            ValidateChecksum (XorMessageWith (f1 ++ f2) (f1.getD 2 0)) ≠ some true)) :
    ValidateAndDecodeMessage (f1 ++ f2) = (some (XorMessageWith f1 x), x, some f2) := by
  obtain ⟨h14, hbytes1, -⟩ := h1
  obtain ⟨h24, -, -⟩ := h2
  have hvw : ValidWith f1 x := by
    rcases hx with ⟨-, h⟩ | ⟨-, h, -⟩ <;> exact h
  obtain ⟨hvc, hL⟩ := hvw
  have hlx : (XorMessageWith f1 x).length = f1.length := List.length_map f1 _
  have h2d : 2 ≤ (XorMessageWith f1 x).length := by omega
  have hLL : (XorMessageWith f1 x).getD 1 0 + 2 ≤ (XorMessageWith f1 x).length := by
    omega
  have hvc2 : ValidateChecksum (XorMessageWith (f1 ++ f2) x) = some true := by
    rw [xorMessageWith_append, validateChecksum_append _ _ h2d hLL]
    exact hvc
  have hg2 : (f1 ++ f2).getD 2 0 = f1.getD 2 0 := List.getD_append _ _ _ _ (by omega)
  have hlapp : (f1 ++ f2).length = f1.length + f2.length := List.length_append f1 f2
  have hmsg1 : (XorMessageWith (f1 ++ f2) x).getD 1 0 = (XorMessageWith f1 x).getD 1 0 := by
    rw [xorMessageWith_append]
    exact List.getD_append _ _ _ _ (by omega)
  have htake : (XorMessageWith f1 x ++ XorMessageWith f2 x).take f1.length =
      XorMessageWith f1 x := by
    rw [← hlx]
    exact List.take_left _ _
  have hdrop : (f1 ++ f2).drop f1.length = f2 := List.drop_left f1 f2
  have hsplit : decodeSplit (f1 ++ f2) (XorMessageWith (f1 ++ f2) x) x =
      (some (XorMessageWith f1 x), x, some f2) := by
    unfold decodeSplit
    dsimp only
    rw [hmsg1]
    rw [show ((XorMessageWith f1 x).getD 1 0 + 2) % 256 = f1.length from by omega]
    rw [if_pos (by omega : f1.length < (f1 ++ f2).length)]
    rw [xorMessageWith_append, htake, hdrop]
  unfold ValidateAndDecodeMessage
  rw [if_neg (by omega : ¬ (f1 ++ f2).length < 4)]
  dsimp only
  rw [hg2]
  rcases hx with ⟨hxe, -⟩ | ⟨hxe, -, hfail⟩
  · subst hxe
    rw [if_pos hvc2]
    exact hsplit
  · subst hxe
    rw [if_neg hfail, if_pos hvc2]
    exact hsplit

/-- C2 counterexample: `f1 = [0,3,1,2,6]` is a valid frame only via the
complemented key 0 (its raw third byte is 1), and `f2 = [0,2,0,2]` is a
valid frame, yet on the concatenation the decoder's first candidate key 1
spuriously passes the checksum with a shorter declared length, so the
result is neither frame₁ de-obfuscated nor frame₂ as remainder. -/
theorem decode_trailing_split_cex :
    IsValidFrame [0, 3, 1, 2, 6] ∧ IsValidFrame [0, 2, 0, 2] ∧
      ValidateAndDecodeMessage ([0, 3, 1, 2, 6] ++ [0, 2, 0, 2]) =
        (some [1, 2, 0, 3], 1, some [6, 0, 2, 0, 2]) ∧
      (ValidateAndDecodeMessage ([0, 3, 1, 2, 6] ++ [0, 2, 0, 2])).2.2 ≠
        some [0, 2, 0, 2] := by
  refine ⟨by decide, by decide, by decide, by decide⟩

theorem decode_trailing_split_witness :
    ValidateAndDecodeMessage ([0, 2, 0, 2] ++ [0, 2, 0, 2]) =
      (some (XorMessageWith [0, 2, 0, 2] 0), 0, some [0, 2, 0, 2]) :=
  decode_trailing_split [0, 2, 0, 2] [0, 2, 0, 2] 0 (by decide) (by decide)
    (by decide) (Or.inl ⟨by decide, by decide⟩)

end Phev
